import Mathlib

/-!
Formal model of the arbitrage-detection and stake-allocation core of
`src/app.py`: the quote normalizer and pairing engine
(`best_two_outcome_arbs`, lines 94-134) and the stake allocator
(`stake_split`, lines 136-143).

Numeric prices are modelled as rationals. Python behaviours that can raise
(`float(...)` on a non-numeric value, division by zero) are modelled in the
`Except Unit` monad.
-/

/-- A raw price field value as it arrives in the odds feed: either a numeric
value, or some other non-null JSON value (a list, a non-numeric string, ...)
on which Python's `float(...)` raises. -/
inductive PVal where
  | pnum (q : ℚ)
  | pother
  deriving DecidableEq

/-- One outcome of a market: `{"name": ..., "price": ...}`; either field may
be missing. -/
structure Outcome where
  name : Option String
  price : Option PVal
  deriving DecidableEq

/-- One market of a bookmaker entry: `{"key": ..., "outcomes": [...]}`. -/
structure Market where
  key : Option String
  outcomes : List Outcome
  deriving DecidableEq

/-- One bookmaker entry of an event: `{"title": ..., "key": ...,
"markets": [...]}`. -/
structure Bookmaker where
  title : Option String
  key : Option String
  markets : List Market
  deriving DecidableEq

/-- A normalized quote row, `rows.append({...})` at app.py lines 105-111. -/
structure Row where
  bookmaker : Option String
  outcome1_name : Option String
  outcome1_price : Option ℚ
  outcome2_name : Option String
  outcome2_price : Option ℚ
  deriving DecidableEq

/-- An arbitrage opportunity record, `arbs.append({...})` at app.py
lines 124-132. -/
structure Arb where
  bk_outcome1 : Option String
  bk_outcome2 : Option String
  outcome1 : Option String
  odd1 : ℚ
  outcome2 : Option String
  odd2 : ℚ
  edge : ℚ
  deriving DecidableEq

/-- `name = bk.get("title") or bk.get("key")` (line 97). Python `or` yields
the second operand whenever the first is falsy, i.e. absent or the empty
string. -/
def bkName (bk : Bookmaker) : Option String :=
  match bk.title with
  | some t => if t = "" then bk.key else some t
  | none => bk.key

/-- `float(o.get("price")) if o.get("price") is not None else None`
(lines 108 and 110): `None` is kept, a numeric value converts, and any
other value makes `float` raise. -/
def pyFloat : Option PVal → Except Unit (Option ℚ)
  | none => .ok none
  | some (.pnum q) => .ok (some q)
  | some .pother => .error ()

/-- The row-building loop of `best_two_outcome_arbs` over one bookmaker's
markets (lines 98-111): markets whose key is not `"h2h"` or whose outcome
count is not exactly two are skipped; each remaining market yields one row
with outcome 0 as outcome1 and outcome 1 as outcome2. -/
def rowsOfMarkets (name : Option String) : List Market → Except Unit (List Row)
  | [] => .ok []
  | m :: ms =>
    if m.key = some "h2h" then
      match m.outcomes with
      | [o1, o2] => do
          let p1 ← pyFloat o1.price
          let p2 ← pyFloat o2.price
          let rest ← rowsOfMarkets name ms
          .ok (⟨name, o1.name, p1, o2.name, p2⟩ :: rest)
      | _ => rowsOfMarkets name ms
    else rowsOfMarkets name ms

/-- The full normalization phase of `best_two_outcome_arbs` (lines 95-111):
rows from all bookmaker entries, in encounter order. -/
def normRows : List Bookmaker → Except Unit (List Row)
  | [] => .ok []
  | bk :: bks => do
      let rs ← rowsOfMarkets (bkName bk) bk.markets
      let rest ← normRows bks
      .ok (rs ++ rest)

/-- The body of the pairing double loop at indices `(i, j)` (lines 118-132)
without the distinct-bookmakers guard: skip when either relevant price is
falsy in Python (absent or zero); otherwise append an opportunity exactly
when `1/p1 + 1/p2 < 1`, with edge `1 - (1/p1 + 1/p2)`. -/
def pairBody (rows : List Row) (i j : Nat) : Option Arb := do
  let a ← rows[i]?
  let b ← rows[j]?
  let p1 ← a.outcome1_price
  let p2 ← b.outcome2_price
  if p1 = 0 ∨ p2 = 0 then none
  else
    let inv_sum := 1 / p1 + 1 / p2
    if inv_sum < 1 then
      some ⟨a.bookmaker, b.bookmaker, a.outcome1_name, p1, b.outcome2_name, p2, 1 - inv_sum⟩
    else none

/-- One iteration of the pairing loop, including the guard
`if i == j and require_diff_books: continue` (lines 116-117). -/
def pairArbIdx (require_diff_books : Bool) (rows : List Row) (i j : Nat) : Option Arb :=
  if i = j ∧ require_diff_books = true then none else pairBody rows i j

/-- The pairing double loop (lines 113-132): all ordered index pairs in
encounter order, collecting the appended opportunities. -/
def arbsUnsorted (rows : List Row) (require_diff_books : Bool) : List Arb :=
  (List.range rows.length).flatMap fun i =>
    (List.range rows.length).filterMap fun j => pairArbIdx require_diff_books rows i j

/-- `arbs.sort(key=lambda d: d["edge"], reverse=True)` (line 133): CPython's
sort is stable, so this is a stable sort by non-increasing edge. -/
def sortArbs (l : List Arb) : List Arb :=
  l.insertionSort fun x y => y.edge ≤ x.edge

/-- The pairing phase of `best_two_outcome_arbs` on an already-normalized
row list: the sorted opportunity list (lines 113-134). -/
def findArbs (rows : List Row) (require_diff_books : Bool) : List Arb :=
  sortArbs (arbsUnsorted rows require_diff_books)

/-- `best_two_outcome_arbs(event_bookmakers, require_diff_books)`
(lines 94-134): normalize, pair, sort. -/
def best_two_outcome_arbs (event_bookmakers : List Bookmaker)
    (require_diff_books : Bool) : Except Unit (List Arb) := do
  let rows ← normRows event_bookmakers
  .ok (findArbs rows require_diff_books)

/-- The tuple `(s1, s2, edge, profit)` returned by `stake_split` (line 143). -/
structure StakeResult where
  s1 : ℚ
  s2 : ℚ
  edge : ℚ
  profit : ℚ
  deriving DecidableEq

/-- Python division `a / b`, which raises `ZeroDivisionError` when `b == 0`. -/
def pydiv (a b : ℚ) : Except Unit ℚ :=
  if b = 0 then .error () else .ok (a / b)

/-- `stake_split(odd1, odd2, bankroll)` (lines 136-143). The function performs
no argument validation; the only way it can fail is a zero divisor. -/
def stake_split (odd1 odd2 bankroll : ℚ) : Except Unit StakeResult := do
  let inv1 ← pydiv 1 odd1
  let inv2 ← pydiv 1 odd2
  let denom := inv1 + inv2
  let q1 ← pydiv inv1 denom
  let q2 ← pydiv inv2 denom
  let edge := 1 - denom
  .ok ⟨bankroll * q1, bankroll * q2, edge, bankroll * edge⟩

/-- Spec-side view of a price field for the normalizer refinement (§4.1 of the
spec): a present numeric price passes through unchanged, an absent price stays
absent. (Non-numeric values never reach this under the cleanliness
hypothesis.) -/
def cleanPrice : Option PVal → Option ℚ
  | none => none
  | some (.pnum q) => some q
  | some .pother => none

/-- Spec-side normalizer for one market, following §4.1 of the spec: emit one
quote exactly when the market is tagged `"h2h"` and has exactly two outcomes,
keeping outcome order, labels and prices unchanged. -/
def specMarketQuote (name : Option String) (m : Market) : Option Row :=
  if m.key = some "h2h" then
    match m.outcomes with
    | [o1, o2] => some ⟨name, o1.name, cleanPrice o1.price, o2.name, cleanPrice o2.price⟩
    | _ => none
  else none

/-- Spec-side normalizer over all bookmaker entries, in encounter order. -/
def specQuotes (bks : List Bookmaker) : List Row :=
  bks.flatMap fun bk => bk.markets.filterMap (specMarketQuote (bkName bk))

/-- An outcome is clean when its price field, if present, is numeric. -/
def cleanOutcome (o : Outcome) : Prop := o.price ≠ some PVal.pother

instance : DecidablePred cleanOutcome := fun o =>
  inferInstanceAs (Decidable (o.price ≠ some PVal.pother))

/-- Every present price field in the input is numeric. -/
def cleanBks (bks : List Bookmaker) : Prop :=
  ∀ bk ∈ bks, ∀ m ∈ bk.markets, ∀ o ∈ m.outcomes, cleanOutcome o

instance (bks : List Bookmaker) : Decidable (cleanBks bks) :=
  inferInstanceAs (Decidable (∀ bk ∈ bks, ∀ m ∈ bk.markets, ∀ o ∈ m.outcomes, cleanOutcome o))

/-- A market is qualifying-clean when, if it is actually normalized (tagged
`"h2h"` with exactly two outcomes), every present price in it is numeric.
Prices of skipped markets are unconstrained: the code's `continue`s at
lines 100 and 103 run before `float` is ever reached. -/
def cleanQualMarket (m : Market) : Prop :=
  m.key = some "h2h" → m.outcomes.length = 2 → ∀ o ∈ m.outcomes, cleanOutcome o

instance (m : Market) : Decidable (cleanQualMarket m) :=
  inferInstanceAs (Decidable
    (m.key = some "h2h" → m.outcomes.length = 2 → ∀ o ∈ m.outcomes, cleanOutcome o))

/-- Every market that is actually normalized has only numeric present
prices. -/
def cleanQualBks (bks : List Bookmaker) : Prop :=
  ∀ bk ∈ bks, ∀ m ∈ bk.markets, cleanQualMarket m

instance (bks : List Bookmaker) : Decidable (cleanQualBks bks) :=
  inferInstanceAs (Decidable (∀ bk ∈ bks, ∀ m ∈ bk.markets, cleanQualMarket m))

/-! Concrete inputs used by witnesses and counterexamples. -/

/-- A bookmaker entry whose only non-numeric prices sit in markets the
normalizer skips: a market with a wrong tag and an h2h market with three
outcomes. -/
def dirtySkippedBk : Bookmaker :=
  ⟨some "SkipBook", some "skipbook",
   [⟨some "totals", [⟨some "X", some PVal.pother⟩, ⟨some "Y", some (.pnum 2)⟩]⟩,
    ⟨some "h2h",
     [⟨some "X", some PVal.pother⟩, ⟨some "Y", some (.pnum 2)⟩,
      ⟨some "Z", some (.pnum 2)⟩]⟩]⟩

/-- A row quoting only outcome 1, at odds 3. -/
def rowA : Row := ⟨some "A", some "X", some 3, some "Y", none⟩

/-- A row quoting only outcome 2, at odds 3. -/
def rowB : Row := ⟨some "B", some "X", none, some "Y", some 3⟩

def demoRows : List Row := [rowA, rowB]

/-- The single opportunity the engine finds in `demoRows`. -/
def demoArb : Arb := ⟨some "A", some "B", some "X", 3, some "Y", 3, 1/3⟩

/-- A row whose outcome-1 price is negative: truthy in Python, so not
filtered out. -/
def rowNeg : Row := ⟨some "A", some "X", some (-2), some "Y", none⟩

/-- A row quoting only outcome 2, at odds 4. -/
def rowPos : Row := ⟨some "B", some "X", none, some "Y", some 4⟩

def negRows : List Row := [rowNeg, rowPos]

/-- The opportunity the engine reports for `negRows`: a negative price and an
edge above 1. -/
def negArb : Arb := ⟨some "A", some "B", some "X", -2, some "Y", 4, 5/4⟩

/-- An h2h market with two outcomes whose first price is a non-numeric
value. -/
def badMarket : Market :=
  ⟨some "h2h", [⟨some "X", some PVal.pother⟩, ⟨some "Y", some (.pnum 2)⟩]⟩

def badBk : Bookmaker := ⟨some "BadBook", some "badbook", [badMarket]⟩

/-- An h2h market with two outcomes, one numeric price and one absent
price. -/
def goodMarket : Market :=
  ⟨some "h2h", [⟨some "X", some (.pnum 3)⟩, ⟨some "Y", none⟩]⟩

/-- A market that is not tagged h2h. -/
def otherMarket : Market :=
  ⟨some "totals", [⟨some "X", some (.pnum 3)⟩, ⟨some "Y", some (.pnum 3)⟩]⟩

/-- An h2h market with three outcomes. -/
def threeWayMarket : Market :=
  ⟨some "h2h",
   [⟨some "X", some (.pnum 3)⟩, ⟨some "Y", some (.pnum 3)⟩, ⟨some "Z", some (.pnum 3)⟩]⟩

def goodBk : Bookmaker :=
  ⟨some "GoodBook", some "goodbook", [goodMarket, otherMarket, threeWayMarket]⟩

/-- The sort comparison used by `sortArbs`: non-increasing edge. -/
def edgeGE (x y : Arb) : Prop := y.edge ≤ x.edge

instance : DecidableRel edgeGE := fun x y =>
  inferInstanceAs (Decidable (y.edge ≤ x.edge))

instance : IsTotal Arb edgeGE := ⟨fun a b => le_total b.edge a.edge⟩

instance : IsTrans Arb edgeGE := ⟨fun _ _ _ h1 h2 => le_trans h2 h1⟩

/-! Helper lemmas shared by the claim theorems. -/

theorem sortArbs_eq_insertionSort (l : List Arb) :
    sortArbs l = l.insertionSort edgeGE := rfl

theorem pairBody_eval {rows : List Row} {i j : Nat} {a b : Row} {p1 p2 : ℚ}
    (ha : rows[i]? = some a) (hb : rows[j]? = some b)
    (hp1 : a.outcome1_price = some p1) (hp2 : b.outcome2_price = some p2) :
    pairBody rows i j =
      if p1 = 0 ∨ p2 = 0 then none
      else if 1 / p1 + 1 / p2 < 1 then
        some ⟨a.bookmaker, b.bookmaker, a.outcome1_name, p1, b.outcome2_name, p2,
              1 - (1 / p1 + 1 / p2)⟩
      else none := by
  simp only [pairBody, ha, hb, hp1, hp2, Option.bind_eq_bind, Option.some_bind]

theorem mem_arbsUnsorted {rows : List Row} {flag : Bool} {o : Arb} :
    o ∈ arbsUnsorted rows flag ↔
      ∃ i j, i < rows.length ∧ j < rows.length ∧ pairArbIdx flag rows i j = some o := by
  simp only [arbsUnsorted, List.mem_flatMap, List.mem_filterMap, List.mem_range]
  constructor
  · rintro ⟨i, hi, j, hj, h⟩
    exact ⟨i, j, hi, hj, h⟩
  · rintro ⟨i, j, hi, hj, h⟩
    exact ⟨i, hi, j, hj, h⟩

theorem mem_findArbs {rows : List Row} {flag : Bool} {o : Arb} :
    o ∈ findArbs rows flag ↔ o ∈ arbsUnsorted rows flag := by
  rw [findArbs, sortArbs_eq_insertionSort]
  exact List.mem_insertionSort edgeGE

theorem stake_split_eval {p1 p2 : ℚ} (b : ℚ) (h1 : p1 ≠ 0) (h2 : p2 ≠ 0)
    (hd : 1 / p1 + 1 / p2 ≠ 0) :
    stake_split p1 p2 b =
      .ok ⟨b * ((1 / p1) / (1 / p1 + 1 / p2)), b * ((1 / p2) / (1 / p1 + 1 / p2)),
           1 - (1 / p1 + 1 / p2), b * (1 - (1 / p1 + 1 / p2))⟩ := by
  simp only [stake_split, pydiv, if_neg h1, if_neg h2, if_neg hd, bind, Except.bind]

theorem filter_orderedInsert_edge (e : ℚ) (a : Arb) (l : List Arb) :
    (List.orderedInsert edgeGE a l).filter (fun o => decide (o.edge = e)) =
      if a.edge = e then a :: l.filter (fun o => decide (o.edge = e))
      else l.filter (fun o => decide (o.edge = e)) := by
  induction l with
  | nil =>
    by_cases h : a.edge = e <;> simp [List.orderedInsert, h]
  | cons b t ih =>
    by_cases hr : edgeGE a b
    · by_cases h : a.edge = e <;>
        simp [List.orderedInsert, if_pos hr, List.filter_cons, h]
    · have hb : a.edge < b.edge := lt_of_not_le hr
      by_cases h : a.edge = e
      · have hbe : ¬ b.edge = e := by rw [← h]; exact (ne_of_gt hb)
        simp [List.orderedInsert, if_neg hr, List.filter_cons, hbe, ih, h]
      · simp [List.orderedInsert, if_neg hr, List.filter_cons, ih, h]

theorem filter_insertionSort_edge (e : ℚ) (l : List Arb) :
    (l.insertionSort edgeGE).filter (fun o => decide (o.edge = e)) =
      l.filter (fun o => decide (o.edge = e)) := by
  induction l with
  | nil => rfl
  | cons a t ih =>
    rw [List.insertionSort, filter_orderedInsert_edge]
    by_cases h : a.edge = e <;> simp [List.filter_cons, h, ih]

/-- C1: for an ordered pair of quote rows `(i, j)` that is not skipped (both
relevant prices present and strictly positive, and not a self-pair under the
distinct-bookmakers flag), the engine puts an opportunity for that pair into
its output if and only if `1/p1 + 1/p2 < 1` strictly, and any reported
opportunity's edge equals `1 - (1/p1 + 1/p2)`. -/
theorem pair_reported_iff_inv_sum_lt_one
    (rows : List Row) (flag : Bool) (i j : Nat) (a b : Row) (p1 p2 : ℚ)
    (ha : rows[i]? = some a) (hb : rows[j]? = some b)
    (hp1 : a.outcome1_price = some p1) (hp2 : b.outcome2_price = some p2)
    (h1 : 0 < p1) (h2 : 0 < p2) (hij : ¬(i = j ∧ flag = true)) :
    ((pairArbIdx flag rows i j).isSome ↔ 1 / p1 + 1 / p2 < 1)
      ∧ (∀ o, pairArbIdx flag rows i j = some o →
          o.edge = 1 - (1 / p1 + 1 / p2) ∧ o ∈ findArbs rows flag) := by
  have hz : ¬(p1 = 0 ∨ p2 = 0) := by
    push_neg
    exact ⟨ne_of_gt h1, ne_of_gt h2⟩
  have hpa : pairArbIdx flag rows i j =
      if 1 / p1 + 1 / p2 < 1 then
        some ⟨a.bookmaker, b.bookmaker, a.outcome1_name, p1, b.outcome2_name, p2,
              1 - (1 / p1 + 1 / p2)⟩
      else none := by
    rw [pairArbIdx, if_neg hij, pairBody_eval ha hb hp1 hp2, if_neg hz]
  constructor
  · rw [hpa]
    by_cases h : 1 / p1 + 1 / p2 < 1 <;> simp [h]
  · intro o ho
    have hi : i < rows.length := (List.getElem?_eq_some_iff.mp ha).1
    have hj : j < rows.length := (List.getElem?_eq_some_iff.mp hb).1
    rw [hpa] at ho
    by_cases h : 1 / p1 + 1 / p2 < 1
    · rw [if_pos h] at ho
      refine ⟨?_, ?_⟩
      · cases ho
        rfl
      · rw [mem_findArbs, mem_arbsUnsorted]
        refine ⟨i, j, hi, hj, ?_⟩
        rw [hpa, if_pos h, ho]
    · rw [if_neg h] at ho
      cases ho

/-- C1 witness: the theorem applied to `demoRows` at the pair `(0, 1)` with
prices 3 and 3. -/
theorem pair_reported_iff_inv_sum_lt_one_witness :
    ((pairArbIdx true demoRows 0 1).isSome ↔ 1 / (3:ℚ) + 1 / 3 < 1)
      ∧ (∀ o, pairArbIdx true demoRows 0 1 = some o →
          o.edge = 1 - (1 / (3:ℚ) + 1 / 3) ∧ o ∈ findArbs demoRows true) :=
  pair_reported_iff_inv_sum_lt_one demoRows true 0 1 rowA rowB 3 3
    (by with_unfolding_all rfl) (by with_unfolding_all rfl) rfl rfl
    (by norm_num) (by norm_num) (by simp)

/-- C2 counterexample: the claim says a pair with a negative relevant price is
never reported, but the engine only filters falsy prices (absent or zero), so
the pair `(rowNeg, rowPos)` with `outcome1_price = -2` is reported. -/
theorem negative_price_pair_reported :
    rowNeg.outcome1_price = some (-2) ∧ ((-2 : ℚ) < 0)
      ∧ pairArbIdx true negRows 0 1 = some negArb
      ∧ negArb ∈ findArbs negRows true := by
  refine ⟨rfl, by norm_num, ?_, ?_⟩ <;> with_unfolding_all decide

/-- C2 amended: the engine skips the pair `(i, j)` whenever row `i`'s
outcome1 price or row `j`'s outcome2 price is absent or zero (Python
falsiness); negative prices are not skipped. -/
theorem pair_skipped_iff_price_absent_or_zero
    (rows : List Row) (flag : Bool) (i j : Nat) (a b : Row)
    (ha : rows[i]? = some a) (hb : rows[j]? = some b)
    (h : a.outcome1_price = none ∨ a.outcome1_price = some 0
       ∨ b.outcome2_price = none ∨ b.outcome2_price = some 0) :
    pairArbIdx flag rows i j = none := by
  rw [pairArbIdx]
  rcases h with h | h | h | h <;>
    [skip; skip; skip; skip] <;>
    · split
      · rfl
      · simp [pairBody, ha, hb, h]

/-- C2 amended witness: the pair `(1, 0)` of `demoRows` is skipped because
row 1 has no outcome1 price. -/
theorem pair_skipped_iff_price_absent_or_zero_witness :
    pairArbIdx true demoRows 1 0 = none :=
  pair_skipped_iff_price_absent_or_zero demoRows true 1 0 rowB rowA
    (by with_unfolding_all rfl) (by with_unfolding_all rfl) (Or.inl rfl)

/-- C3: with `require_diff_books = true` the engine never pairs a row with
itself (sameness is judged by position: any pair of distinct indices is
treated by the unconditional body, whatever the bookmaker names); with the
flag false every pair, self-pairs included, is treated by the unconditional
body. -/
theorem distinct_books_flag_semantics :
    (∀ rows : List Row, ∀ i, pairArbIdx true rows i i = none)
      ∧ (∀ rows : List Row, ∀ i j, i ≠ j →
          pairArbIdx true rows i j = pairBody rows i j)
      ∧ (∀ rows : List Row, ∀ i j, pairArbIdx false rows i j = pairBody rows i j) :=
  ⟨fun _ i => by simp [pairArbIdx],
   fun _ i j h => by simp [pairArbIdx, h],
   fun _ i j => by simp [pairArbIdx]⟩

/-- C3 witness: the three conjuncts applied at concrete indices of
`demoRows`. -/
theorem distinct_books_flag_semantics_witness :
    pairArbIdx true demoRows 0 0 = none
      ∧ pairArbIdx true demoRows 0 1 = pairBody demoRows 0 1
      ∧ pairArbIdx false demoRows 1 1 = pairBody demoRows 1 1 :=
  ⟨distinct_books_flag_semantics.1 demoRows 0,
   distinct_books_flag_semantics.2.1 demoRows 0 1 (by decide),
   distinct_books_flag_semantics.2.2 demoRows 1 1⟩

/-- C4: for every input row list the engine's opportunity list is sorted by
non-increasing edge, is a permutation of the unsorted encounter-order list,
and opportunities of any given edge keep their encounter order (stability). -/
theorem arbs_sorted_desc_stable (rows : List Row) (flag : Bool) :
    (findArbs rows flag).Sorted edgeGE
      ∧ (findArbs rows flag).Perm (arbsUnsorted rows flag)
      ∧ (∀ e : ℚ, (findArbs rows flag).filter (fun o => decide (o.edge = e))
          = (arbsUnsorted rows flag).filter (fun o => decide (o.edge = e))) :=
  ⟨by rw [findArbs, sortArbs_eq_insertionSort]
      exact List.sorted_insertionSort edgeGE (arbsUnsorted rows flag),
   by rw [findArbs, sortArbs_eq_insertionSort]
      exact List.perm_insertionSort edgeGE (arbsUnsorted rows flag),
   fun e => by rw [findArbs, sortArbs_eq_insertionSort]
               exact filter_insertionSort_edge e (arbsUnsorted rows flag)⟩

theorem pyFloat_of_clean {p : Option PVal} (h : p ≠ some PVal.pother) :
    pyFloat p = .ok (cleanPrice p) := by
  match p with
  | none => rfl
  | some (.pnum q) => rfl
  | some .pother => exact absurd rfl h

theorem rowsOfMarkets_of_clean (name : Option String) (ms : List Market)
    (h : ∀ m ∈ ms, ∀ o ∈ m.outcomes, cleanOutcome o) :
    rowsOfMarkets name ms = .ok (ms.filterMap (specMarketQuote name)) := by
  induction ms with
  | nil => rfl
  | cons m t ih =>
    have hm : ∀ o ∈ m.outcomes, cleanOutcome o := h m (List.mem_cons_self m t)
    have ht := fun m2 hm2 => h m2 (List.mem_cons_of_mem m hm2)
    by_cases hk : m.key = some "h2h"
    · rcases houts : m.outcomes with _ | ⟨o1, _ | ⟨o2, _ | _⟩⟩
      · simp [rowsOfMarkets, hk, houts, specMarketQuote, List.filterMap_cons, ih ht]
      · simp [rowsOfMarkets, hk, houts, specMarketQuote, List.filterMap_cons, ih ht]
      · have h1 : cleanOutcome o1 := hm o1 (by rw [houts]; exact List.mem_cons_self _ _)
        have h2 : cleanOutcome o2 := hm o2 (by
          rw [houts]
          exact List.mem_cons_of_mem _ (List.mem_cons_self _ _))
        simp [rowsOfMarkets, hk, houts, pyFloat_of_clean h1, pyFloat_of_clean h2,
              ih ht, specMarketQuote, List.filterMap_cons, bind, Except.bind]
      · simp [rowsOfMarkets, hk, houts, specMarketQuote, List.filterMap_cons, ih ht]
    · simp [rowsOfMarkets, hk, specMarketQuote, List.filterMap_cons, ih ht]

theorem normRows_of_clean (bks : List Bookmaker) (h : cleanBks bks) :
    normRows bks = .ok (specQuotes bks) := by
  induction bks with
  | nil => rfl
  | cons bk t ih =>
    have hbk := h bk (List.mem_cons_self bk t)
    have ht : cleanBks t := fun b2 hb2 => h b2 (List.mem_cons_of_mem bk hb2)
    simp [normRows, rowsOfMarkets_of_clean (bkName bk) bk.markets hbk, ih ht,
          specQuotes, List.flatMap_cons, bind, Except.bind]

/-- C5 counterexample: `badMarket` is tagged h2h and has exactly two outcomes,
so the claim requires the normalizer to emit a Quote for it, but its first
price is a non-numeric value, `float` raises, and the normalizer emits
nothing at all. -/
theorem normalizer_error_on_nonnumeric_price :
    badMarket.key = some "h2h" ∧ badMarket.outcomes.length = 2
      ∧ normRows [badBk] = .error ()
      ∧ specQuotes [badBk] = [⟨some "BadBook", some "X", none, some "Y", some 2⟩] := by
  refine ⟨rfl, rfl, ?_, ?_⟩ <;> with_unfolding_all rfl

/-- C5 amended: provided every present price in the input is numeric, the
normalizer emits exactly one Quote per market tagged h2h with exactly two
outcomes, excludes every other market, and preserves outcome order, labels
and prices (absent prices staying absent). -/
theorem normalizer_emits_exactly_qualifying (bks : List Bookmaker)
    (h : cleanBks bks) : normRows bks = .ok (specQuotes bks) :=
  normRows_of_clean bks h

/-- C5 amended witness: the amended theorem applied to `goodBk`, whose three
markets exercise the qualifying, wrong-tag and wrong-outcome-count cases. -/
theorem normalizer_emits_exactly_qualifying_witness :
    normRows [goodBk] = .ok (specQuotes [goodBk]) :=
  normalizer_emits_exactly_qualifying [goodBk] (by with_unfolding_all decide)

/-- C6 counterexample: the claim says the combined normalizer/engine function
never fails on malformed input, but a present non-numeric price in a
qualifying market makes it fail. -/
theorem engine_error_on_nonnumeric_price :
    best_two_outcome_arbs [badBk] true = .error () := by
  with_unfolding_all rfl

theorem rowsOfMarkets_of_cleanQual (name : Option String) (ms : List Market)
    (h : ∀ m ∈ ms, cleanQualMarket m) :
    rowsOfMarkets name ms = .ok (ms.filterMap (specMarketQuote name)) := by
  induction ms with
  | nil => rfl
  | cons m t ih =>
    have hm : cleanQualMarket m := h m (List.mem_cons_self m t)
    have ht := fun m2 hm2 => h m2 (List.mem_cons_of_mem m hm2)
    by_cases hk : m.key = some "h2h"
    · rcases houts : m.outcomes with _ | ⟨o1, _ | ⟨o2, _ | _⟩⟩
      · simp [rowsOfMarkets, hk, houts, specMarketQuote, List.filterMap_cons, ih ht]
      · simp [rowsOfMarkets, hk, houts, specMarketQuote, List.filterMap_cons, ih ht]
      · have hcl : ∀ o ∈ m.outcomes, cleanOutcome o := hm hk (by simp [houts])
        have h1 : cleanOutcome o1 := hcl o1 (by
          rw [houts]
          exact List.mem_cons_self _ _)
        have h2 : cleanOutcome o2 := hcl o2 (by
          rw [houts]
          exact List.mem_cons_of_mem _ (List.mem_cons_self _ _))
        simp [rowsOfMarkets, hk, houts, pyFloat_of_clean h1, pyFloat_of_clean h2,
              ih ht, specMarketQuote, List.filterMap_cons, bind, Except.bind]
      · simp [rowsOfMarkets, hk, houts, specMarketQuote, List.filterMap_cons, ih ht]
    · simp [rowsOfMarkets, hk, specMarketQuote, List.filterMap_cons, ih ht]

theorem normRows_of_cleanQual (bks : List Bookmaker) (h : cleanQualBks bks) :
    normRows bks = .ok (specQuotes bks) := by
  induction bks with
  | nil => rfl
  | cons bk t ih =>
    have hbk := h bk (List.mem_cons_self bk t)
    have ht : cleanQualBks t := fun b2 hb2 => h b2 (List.mem_cons_of_mem bk hb2)
    simp [normRows, rowsOfMarkets_of_cleanQual (bkName bk) bk.markets hbk, ih ht,
          specQuotes, List.flatMap_cons, bind, Except.bind]

theorem rowsOfMarkets_cons_error (name : Option String) (m : Market)
    (t : List Market) (h : rowsOfMarkets name t = .error ()) :
    rowsOfMarkets name (m :: t) = .error () := by
  by_cases hk : m.key = some "h2h"
  · rcases houts : m.outcomes with _ | ⟨o1, _ | ⟨o2, _ | _⟩⟩
    · simp [rowsOfMarkets, hk, houts, h]
    · simp [rowsOfMarkets, hk, houts, h]
    · cases hp1 : pyFloat o1.price with
      | error e =>
        cases e
        simp [rowsOfMarkets, hk, houts, hp1, bind, Except.bind]
      | ok v =>
        cases hp2 : pyFloat o2.price with
        | error e =>
          cases e
          simp [rowsOfMarkets, hk, houts, hp1, hp2, bind, Except.bind]
        | ok w =>
          simp [rowsOfMarkets, hk, houts, hp1, hp2, h, bind, Except.bind]
    · simp [rowsOfMarkets, hk, houts, h]
  · simp [rowsOfMarkets, hk, h]

theorem rowsOfMarkets_error_of_dirty (name : Option String) (ms : List Market)
    (h : ∃ m ∈ ms, ¬ cleanQualMarket m) :
    rowsOfMarkets name ms = .error () := by
  induction ms with
  | nil =>
    obtain ⟨m, hm, _⟩ := h
    exact absurd hm (List.not_mem_nil m)
  | cons m t ih =>
    obtain ⟨m', hm', hdirty⟩ := h
    rcases List.mem_cons.mp hm' with rfl | hmt
    · simp only [cleanQualMarket] at hdirty
      push_neg at hdirty
      obtain ⟨hk, hlen, o, ho, hbad⟩ := hdirty
      have hbad' : o.price = some PVal.pother := not_not.mp hbad
      obtain ⟨o1, o2, houts⟩ := List.length_eq_two.mp hlen
      rw [houts] at ho
      rcases List.mem_cons.mp ho with rfl | ho2
      · simp [rowsOfMarkets, hk, houts, pyFloat, hbad', bind, Except.bind]
      · rcases List.mem_cons.mp ho2 with rfl | ho3
        · have hp2 : pyFloat o.price = .error () := by
            rw [hbad']
            rfl
          cases hp1 : pyFloat o1.price with
          | error e =>
            cases e
            simp [rowsOfMarkets, hk, houts, hp1, bind, Except.bind]
          | ok v =>
            simp [rowsOfMarkets, hk, houts, hp1, hp2, bind, Except.bind]
        · exact absurd ho3 (List.not_mem_nil o)
    · exact rowsOfMarkets_cons_error name m t (ih ⟨m', hmt, hdirty⟩)

theorem normRows_error_of_dirty (bks : List Bookmaker) (h : ¬ cleanQualBks bks) :
    normRows bks = .error () := by
  induction bks with
  | nil =>
    exact absurd (fun bk hbk => absurd hbk (List.not_mem_nil bk)) h
  | cons bk t ih =>
    by_cases hbk : ∀ m ∈ bk.markets, cleanQualMarket m
    · have ht : ¬ cleanQualBks t := by
        intro hct
        apply h
        intro b hb
        rcases List.mem_cons.mp hb with rfl | hbt
        · exact hbk
        · exact hct b hbt
      simp [normRows, rowsOfMarkets_of_cleanQual (bkName bk) bk.markets hbk,
            ih ht, bind, Except.bind]
    · push_neg at hbk
      simp [normRows, rowsOfMarkets_error_of_dirty (bkName bk) bk.markets hbk,
            bind, Except.bind]

/-- C6 amended: a missing price is preserved as absent and a numeric price is
passed through unchanged, but a present non-numeric price reaching `float`
raises; the combined function returns normally exactly when every market it
actually normalizes (tagged h2h with exactly two outcomes) has only numeric
present prices. In particular it can fail on malformed input, while a
non-numeric price in a skipped market never reaches `float` and causes no
failure. -/
theorem price_handling_amended (bks : List Bookmaker) (flag : Bool) :
    pyFloat none = .ok none
      ∧ (∀ q : ℚ, pyFloat (some (.pnum q)) = .ok (some q))
      ∧ pyFloat (some .pother) = .error ()
      ∧ ((∃ l, best_two_outcome_arbs bks flag = .ok l) ↔ cleanQualBks bks) := by
  refine ⟨rfl, fun q => rfl, rfl, ?_, ?_⟩
  · rintro ⟨l, hl⟩
    by_contra hdirty
    rw [best_two_outcome_arbs] at hl
    simp [normRows_error_of_dirty bks hdirty, bind, Except.bind] at hl
  · intro hclean
    refine ⟨findArbs (specQuotes bks) flag, ?_⟩
    simp [best_two_outcome_arbs, normRows_of_cleanQual bks hclean, bind, Except.bind]

/-- C6 amended witness: both directions at concrete inputs - `goodBk`
normalizes fine, `dirtySkippedBk` does too because its non-numeric prices sit
only in skipped markets, and `badBk` fails. -/
theorem price_handling_amended_witness :
    (∃ l, best_two_outcome_arbs [goodBk] true = .ok l)
      ∧ (∃ l, best_two_outcome_arbs [dirtySkippedBk] true = .ok l)
      ∧ ¬ ∃ l, best_two_outcome_arbs [badBk] true = .ok l :=
  ⟨(price_handling_amended [goodBk] true).2.2.2.mpr (by with_unfolding_all decide),
   (price_handling_amended [dirtySkippedBk] true).2.2.2.mpr
     (by with_unfolding_all decide),
   fun hex => absurd ((price_handling_amended [badBk] true).2.2.2.mp hex)
     (by with_unfolding_all decide)⟩

/-- C7: for positive prices and a nonnegative bankroll, `stake_split` returns
normally with stakes summing to the bankroll, equal payout on both outcomes,
edge `1 - (1/p1 + 1/p2)` and profit `bankroll * edge`; for a true arbitrage
pair and positive bankroll the profit is positive. -/
theorem stake_split_invariants (p1 p2 b : ℚ)
    (h1 : 0 < p1) (h2 : 0 < p2) (hb : 0 ≤ b) :
    ∃ r : StakeResult, stake_split p1 p2 b = .ok r
      ∧ r.s1 + r.s2 = b
      ∧ r.s1 * p1 = r.s2 * p2
      ∧ r.edge = 1 - (1 / p1 + 1 / p2)
      ∧ r.profit = b * r.edge
      ∧ (1 / p1 + 1 / p2 < 1 → 0 < b → 0 < r.profit) := by
  have hd : (0:ℚ) < 1 / p1 + 1 / p2 :=
    add_pos (one_div_pos.mpr h1) (one_div_pos.mpr h2)
  refine ⟨_, stake_split_eval b (ne_of_gt h1) (ne_of_gt h2) (ne_of_gt hd),
    ?_, ?_, rfl, rfl, ?_⟩
  · show b * ((1 / p1) / (1 / p1 + 1 / p2))
        + b * ((1 / p2) / (1 / p1 + 1 / p2)) = b
    rw [← mul_add, div_add_div_same, div_self (ne_of_gt hd), mul_one]
  · show b * ((1 / p1) / (1 / p1 + 1 / p2)) * p1
        = b * ((1 / p2) / (1 / p1 + 1 / p2)) * p2
    field_simp
    ring
  · intro hlt hb0
    show (0:ℚ) < b * (1 - (1 / p1 + 1 / p2))
    have hpos : (0:ℚ) < 1 - (1 / p1 + 1 / p2) := by linarith
    exact mul_pos hb0 hpos

/-- C7 witness: the theorem applied at prices 3, 3 and bankroll 100. -/
theorem stake_split_invariants_witness :
    ∃ r : StakeResult, stake_split 3 3 100 = .ok r
      ∧ r.s1 + r.s2 = 100
      ∧ r.s1 * 3 = r.s2 * 3
      ∧ r.edge = 1 - (1 / (3:ℚ) + 1 / 3)
      ∧ r.profit = 100 * r.edge
      ∧ (1 / (3:ℚ) + 1 / 3 < 1 → (0:ℚ) < 100 → 0 < r.profit) :=
  stake_split_invariants 3 3 100 (by norm_num) (by norm_num) (by norm_num)

/-- C8 counterexample: the claim says an invalid argument (non-positive price
or negative bankroll) is signalled rather than silently returning nonsensical
stakes, but `stake_split` returns a normal result both for a negative
bankroll (negative stakes) and for a negative price. -/
theorem stake_split_accepts_invalid_args :
    stake_split 2 2 (-100) = .ok ⟨-50, -50, 0, 0⟩
      ∧ stake_split (-2) 4 100 = .ok ⟨200, -100, 5/4, 125⟩
      ∧ ((-100 : ℚ) < 0) ∧ ((-2 : ℚ) < 0) := by
  refine ⟨?_, ?_, by norm_num, by norm_num⟩ <;> with_unfolding_all rfl

/-- C8 amended: `stake_split` performs no argument validation; it signals an
error exactly when a division by zero occurs (a zero price, or an inverse sum
equal to zero), and otherwise — negative prices and negative bankrolls
included — returns a normal result. -/
theorem stake_split_error_only_zero_divisor (p1 p2 b : ℚ) :
    stake_split 0 p2 b = .error ()
      ∧ (p1 ≠ 0 → stake_split p1 0 b = .error ())
      ∧ (p1 ≠ 0 → p2 ≠ 0 → 1 / p1 + 1 / p2 ≠ 0 →
          ∃ r, stake_split p1 p2 b = .ok r) := by
  refine ⟨?_, ?_, ?_⟩
  · simp [stake_split, pydiv, bind, Except.bind]
  · intro h
    simp [stake_split, pydiv, if_neg h, bind, Except.bind]
  · intro h1 h2 hd
    exact ⟨_, stake_split_eval b h1 h2 hd⟩

/-- C8 amended witness: zero prices raise, a nonzero configuration returns
normally. -/
theorem stake_split_error_only_zero_divisor_witness :
    stake_split 0 5 7 = .error ()
      ∧ stake_split 2 0 7 = .error ()
      ∧ ∃ r, stake_split 2 2 7 = .ok r :=
  ⟨(stake_split_error_only_zero_divisor 2 5 7).1,
   (stake_split_error_only_zero_divisor 2 5 7).2.1 (by norm_num),
   (stake_split_error_only_zero_divisor 2 2 7).2.2 (by norm_num) (by norm_num)
     (by norm_num)⟩

theorem pairBody_some {rows : List Row} {i j : Nat} {o : Arb}
    (hp : pairBody rows i j = some o) :
    ∃ a b p1 p2, rows[i]? = some a ∧ rows[j]? = some b
      ∧ a.outcome1_price = some p1 ∧ b.outcome2_price = some p2
      ∧ ¬(p1 = 0 ∨ p2 = 0) ∧ 1 / p1 + 1 / p2 < 1
      ∧ o = ⟨a.bookmaker, b.bookmaker, a.outcome1_name, p1, b.outcome2_name, p2,
             1 - (1 / p1 + 1 / p2)⟩ := by
  simp only [pairBody, Option.bind_eq_bind] at hp
  rcases hA : rows[i]? with _ | a <;> rw [hA] at hp
  · cases hp
  simp only [Option.some_bind] at hp
  rcases hB : rows[j]? with _ | b <;> rw [hB] at hp
  · cases hp
  simp only [Option.some_bind] at hp
  rcases hP1 : a.outcome1_price with _ | p1 <;> rw [hP1] at hp
  · cases hp
  simp only [Option.some_bind] at hp
  rcases hP2 : b.outcome2_price with _ | p2 <;> rw [hP2] at hp
  · cases hp
  simp only [Option.some_bind] at hp
  by_cases hz : p1 = 0 ∨ p2 = 0
  · rw [if_pos hz] at hp
    cases hp
  rw [if_neg hz] at hp
  by_cases hlt : 1 / p1 + 1 / p2 < 1
  · rw [if_pos hlt] at hp
    exact ⟨a, b, p1, p2, rfl, rfl, hP1, hP2, hz, hlt, (Option.some.inj hp).symm⟩
  · rw [if_neg hlt] at hp
    cases hp

/-- C9 counterexample: the claim says every reported Opportunity has strictly
positive prices and an edge in (0,1), but with a negative input price the
engine reports an opportunity with `odd1 = -2` and edge `5/4 > 1`. -/
theorem opportunity_invariant_violated :
    findArbs negRows true = [negArb]
      ∧ negArb.odd1 = -2 ∧ ¬(0 < negArb.odd1)
      ∧ negArb.edge = 5 / 4 ∧ ¬(negArb.edge < 1) := by
  refine ⟨?_, rfl, by norm_num [negArb], rfl, by norm_num [negArb]⟩
  with_unfolding_all decide

/-- C9 amended: every reported Opportunity has nonzero prices, satisfies
`1/odd1 + 1/odd2 < 1` strictly and `edge = 1 - (1/odd1 + 1/odd2) > 0`; if
moreover every present price in the input rows is positive, its prices are
positive and its edge lies in (0,1). -/
theorem opportunity_fields_amended (rows : List Row) (flag : Bool) (o : Arb)
    (ho : o ∈ findArbs rows flag) :
    (o.odd1 ≠ 0 ∧ o.odd2 ≠ 0 ∧ 1 / o.odd1 + 1 / o.odd2 < 1
        ∧ o.edge = 1 - (1 / o.odd1 + 1 / o.odd2) ∧ 0 < o.edge)
      ∧ ((∀ r ∈ rows, (∀ p, r.outcome1_price = some p → 0 < p)
            ∧ (∀ p, r.outcome2_price = some p → 0 < p)) →
          0 < o.odd1 ∧ 0 < o.odd2 ∧ o.edge < 1) := by
  rw [mem_findArbs, mem_arbsUnsorted] at ho
  obtain ⟨i, j, hi, hj, hp⟩ := ho
  rw [pairArbIdx] at hp
  by_cases hg : i = j ∧ flag = true
  · rw [if_pos hg] at hp
    cases hp
  rw [if_neg hg] at hp
  obtain ⟨a, b, p1, p2, hA, hB, hP1, hP2, hz, hlt, rfl⟩ := pairBody_some hp
  push_neg at hz
  obtain ⟨hz1, hz2⟩ := hz
  constructor
  · refine ⟨hz1, hz2, hlt, rfl, ?_⟩
    show (0:ℚ) < 1 - (1 / p1 + 1 / p2)
    linarith
  · intro hpos
    have h1 : 0 < p1 := (hpos a (List.getElem?_mem hA)).1 p1 hP1
    have h2 : 0 < p2 := (hpos b (List.getElem?_mem hB)).2 p2 hP2
    have e1 : (0:ℚ) < 1 / p1 := one_div_pos.mpr h1
    have e2 : (0:ℚ) < 1 / p2 := one_div_pos.mpr h2
    refine ⟨h1, h2, ?_⟩
    show (1:ℚ) - (1 / p1 + 1 / p2) < 1
    linarith

/-- C9 amended witness: the theorem applied to `demoRows` and its reported
opportunity `demoArb`, whose input prices are all positive. -/
theorem opportunity_fields_amended_witness :
    (demoArb.odd1 ≠ 0 ∧ demoArb.odd2 ≠ 0
        ∧ 1 / demoArb.odd1 + 1 / demoArb.odd2 < 1
        ∧ demoArb.edge = 1 - (1 / demoArb.odd1 + 1 / demoArb.odd2)
        ∧ 0 < demoArb.edge)
      ∧ ((∀ r ∈ demoRows, (∀ p, r.outcome1_price = some p → 0 < p)
            ∧ (∀ p, r.outcome2_price = some p → 0 < p)) →
          0 < demoArb.odd1 ∧ 0 < demoArb.odd2 ∧ demoArb.edge < 1) :=
  opportunity_fields_amended demoRows true demoArb (by with_unfolding_all decide)

/-- C10: `stake_split` is linear in the bankroll: scaling the bankroll by
`c ≥ 0` scales both stakes and the profit by `c` and keeps the edge; with
bankroll 0 the stakes and profit are 0. -/
theorem stake_split_linear_in_bankroll (p1 p2 b c : ℚ)
    (h1 : 0 < p1) (h2 : 0 < p2) (hc : 0 ≤ c) :
    ∃ r rc r0 : StakeResult,
      stake_split p1 p2 b = .ok r
        ∧ stake_split p1 p2 (c * b) = .ok rc
        ∧ stake_split p1 p2 0 = .ok r0
        ∧ rc.s1 = c * r.s1 ∧ rc.s2 = c * r.s2
        ∧ rc.profit = c * r.profit ∧ rc.edge = r.edge
        ∧ r0.s1 = 0 ∧ r0.s2 = 0 ∧ r0.profit = 0 := by
  have hd : (0:ℚ) < 1 / p1 + 1 / p2 :=
    add_pos (one_div_pos.mpr h1) (one_div_pos.mpr h2)
  refine ⟨_, _, _,
    stake_split_eval b (ne_of_gt h1) (ne_of_gt h2) (ne_of_gt hd),
    stake_split_eval (c * b) (ne_of_gt h1) (ne_of_gt h2) (ne_of_gt hd),
    stake_split_eval 0 (ne_of_gt h1) (ne_of_gt h2) (ne_of_gt hd),
    ?_, ?_, ?_, rfl, ?_, ?_, ?_⟩
  · show (c * b) * ((1 / p1) / (1 / p1 + 1 / p2))
        = c * (b * ((1 / p1) / (1 / p1 + 1 / p2)))
    ring
  · show (c * b) * ((1 / p2) / (1 / p1 + 1 / p2))
        = c * (b * ((1 / p2) / (1 / p1 + 1 / p2)))
    ring
  · show (c * b) * (1 - (1 / p1 + 1 / p2))
        = c * (b * (1 - (1 / p1 + 1 / p2)))
    ring
  · show (0:ℚ) * ((1 / p1) / (1 / p1 + 1 / p2)) = 0
    ring
  · show (0:ℚ) * ((1 / p2) / (1 / p1 + 1 / p2)) = 0
    ring
  · show (0:ℚ) * (1 - (1 / p1 + 1 / p2)) = 0
    ring

/-- C10 witness: the theorem applied at prices 3, 3, bankroll 10 and scale
factor 2. -/
theorem stake_split_linear_in_bankroll_witness :
    ∃ r rc r0 : StakeResult,
      stake_split 3 3 10 = .ok r
        ∧ stake_split 3 3 (2 * 10) = .ok rc
        ∧ stake_split 3 3 0 = .ok r0
        ∧ rc.s1 = 2 * r.s1 ∧ rc.s2 = 2 * r.s2
        ∧ rc.profit = 2 * r.profit ∧ rc.edge = r.edge
        ∧ r0.s1 = 0 ∧ r0.s2 = 0 ∧ r0.profit = 0 :=
  stake_split_linear_in_bankroll 3 3 10 2 (by norm_num) (by norm_num) (by norm_num)
